import Mathlib

/-!
# Verification of the Bittrex exchange adapter (`exchanges/bittrex/bittrexclient.py`)

Shallow embedding of the adapter's core logic:

* Python `float` values (prices, amounts, volumes, fees) are modelled as exact
  rationals (`ℚ`); the adapter performs only field-by-field arithmetic
  (`+`, `-`, `*`, `/`) on them.
* Epoch timestamps are modelled as `Int` (Python integers; the code subtracts
  `6*3600` from `epoch_start`, which may go negative).
* Currency symbols and market names are modelled as lists of characters
  (`Symb`); Python's single-character `str.split`/`str.replace` used by the
  code are embedded as `splitOnChar`/`List.map`.
* The exchange HTTP client (`self.bittrex`, a black box per the adapter) is
  modelled as an `Env` of response functions; its balance response is already
  shaped as the symbol-to-available mapping that `get_balances` builds.
* The timestamp-string parsing done by `time.strptime`/`datetime.strptime`
  (standard-library collaborators) is abstracted to the epoch value it
  produces: tick records carry the parsed epoch, and the trade-history parse
  is a `String → Int` parameter.
* Python exceptions are modelled with `Except String`; code that cannot raise
  returns pure values.
* Statements and diagnostics printed by the code have no data flow and are
  dropped, except that exchange interactions are recorded in a call log so
  that "no network call is issued" claims are expressible.
-/

/-- Currency symbols / market-name strings, as lists of characters. -/
abbrev Symb := List Char

/-- Modelled from the spec: `strategies.enums.TradeState` (not under `src/`);
only the values `buy`, `sell`, `none` that §3 of the spec lists are used by
the adapter. -/
inductive TradeState where
  | buy : TradeState
  | sell : TradeState
  | none : TradeState
deriving DecidableEq

/-- A raw exchange tick as returned by `bittrex.get_ticks` (§6 of the spec:
`{T, H, L, O, C, V, BV}`).  The wire timestamp string `T` is represented by
the epoch value `int(time.mktime(time.strptime(ticker['T'], pattern)))` that
`return_candles` parses from it. -/
structure Tick where
  T : Int
  H : ℚ
  L : ℚ
  O : ℚ
  C : ℚ
  V : ℚ
  BV : ℚ
deriving DecidableEq

/-- The `raw_ticker` dictionary built inside `return_candles` (lines 66-75),
also the shape of the emitted candles. -/
structure RawTick where
  high : ℚ
  low : ℚ
  «open» : ℚ
  close : ℚ
  volume : ℚ
  quoteVolume : ℚ
  date : Int
  weightedAverage : ℚ
deriving DecidableEq

/-- Python `range(start, stop, step)` as a list, with explicit fuel so the
definition is structural (each iteration advances `start` by `step ≥ 1`, so
`(stop - start).toNat` steps always suffice). -/
def pyRangeAux : Nat → Int → Int → Int → List Int
  | 0, _, _, _ => []
  | fuel + 1, start, stop, step =>
    if 0 < step ∧ start < stop then start :: pyRangeAux fuel (start + step) stop step
    else []

/-- Python `range(start, stop, step)` for a positive step (the adapter only
uses positive periods; Python raises on `step == 0`, which no claim uses). -/
def pyRange (start stop step : Int) : List Int :=
  pyRangeAux (stop - start).toNat start stop step

/-- `raw_ticker` construction from a wire tick (`return_candles` lines 66-75):
all price fields copied, `date` set to the parsed epoch, `weightedAverage`
set to `0.0`. -/
def mkRawTicker (t : Tick) : RawTick :=
  { high := t.H, low := t.L, «open» := t.O, close := t.C, volume := t.V
    quoteVolume := t.BV, date := t.T, weightedAverage := 0 }

/-- The `raw_tickers` list built by the parse loop of `return_candles`
(lines 56-77): ticks strictly older than `epoch_start - 6*3600` are skipped
(`continue`), the rest become `raw_ticker` records in input order. -/
def retainedTicks (epoch_start : Int) (tickers : List Tick) : List RawTick :=
  tickers.filterMap fun t =>
    if t.T < epoch_start - 6 * 3600 then Option.none else some (mkRawTicker t)

/-- The interpolation loop of `return_candles` (lines 82-91): for each grid
epoch, `items` is the list of retained tickers with `date <= ticker_epoch`;
the guard `len(items) < 0` is kept verbatim (it never holds, since a length
is never negative), so `items[-1]` is reached even when `items` is empty, in
which case Python raises `IndexError`; otherwise the last element is copied
with its `date` overwritten by the grid epoch. -/
def interpolateTickers (raw_tickers : List RawTick) : List Int → Except String (List RawTick)
  | [] => Except.ok []
  | ticker_epoch :: rest =>
    let items := raw_tickers.filter fun element => element.date ≤ ticker_epoch
    if items.length < 0 then interpolateTickers raw_tickers rest
    else
      match items.getLast? with
      | Option.none => Except.error "IndexError: list index out of range"
      | some item =>
        match interpolateTickers raw_tickers rest with
        | Except.ok out_tickers => Except.ok ({ item with date := ticker_epoch } :: out_tickers)
        | Except.error e => Except.error e

/-- `BittrexClient.return_candles` (lines 40-93).  `res_result` is
`res['result']` from the exchange: `Option.none` models the `tickers is None`
branch, which returns an empty collection (`dict()` in the code) at once.
The `got_min_epoch_ticker` flag only feeds a printed diagnostic and carries
no data flow.  Python's default `period` is 300. -/
def return_candles (res_result : Option (List Tick)) (epoch_start epoch_end : Int)
    (period : Int) : Except String (List RawTick) :=
  match res_result with
  | Option.none => Except.ok []
  | some tickers =>
    interpolateTickers (retainedTicks epoch_start tickers)
      (pyRange epoch_start epoch_end period)

/-- One record of `bittrex.get_market_history` as used by
`get_volume_from_history`: a textual timestamp and a quantity. -/
structure TradeRecord where
  TimeStamp : String
  Quantity : ℚ
deriving DecidableEq

/-- `BittrexClient.get_volume_from_history` (lines 107-127).  `parseUTC`
abstracts `datetime.strptime(ts.split('.', 1)[0], pattern)` followed by
`.replace(tzinfo=timezone.utc).timestamp()`; `epoch_now` is the
`int(time.time())` taken at call time.  A record's quantity is added exactly
when its parsed epoch is `>= epoch_now - candle_size*60`. -/
def get_volume_from_history (parseUTC : String → Int) (epoch_now : Int)
    (history : List TradeRecord) (candle_size : Int) : ℚ :=
  let epoch_candle_start := epoch_now - candle_size * 60
  history.foldl
    (fun volume item =>
      if parseUTC item.TimeStamp ≥ epoch_candle_start then volume + item.Quantity
      else volume)
    0

/-- Written from the spec's words (§4.2, C6) for refinement comparison, not
from the code: the sum of `Quantity` over exactly those records whose parsed
UTC timestamp lies in the window `[now - window_minutes*60, now]` (lower
bound inclusive). -/
def spec_window_volume (parseUTC : String → Int) (epoch_now : Int)
    (history : List TradeRecord) (window_minutes : Int) : ℚ :=
  ((history.filter fun r =>
      epoch_now - window_minutes * 60 ≤ parseUTC r.TimeStamp ∧
        parseUTC r.TimeStamp ≤ epoch_now).map
    (fun r => r.Quantity)).sum

/-- Python's `str.split(sep)` for a single-character separator: splits at
every occurrence, keeping empty pieces (`''.split('-') == ['']`). -/
def splitOnChar (c : Char) : List Char → List (List Char)
  | [] => [[]]
  | x :: xs =>
    let r := splitOnChar c xs
    if x = c then [] :: r
    else
      match r with
      | [] => [[x]]
      | y :: ys => (x :: y) :: ys

/-- `BittrexClient.get_buy_sell_all_amount` (lines 159-184).  `wallet` is the
symbol-to-available mapping; `fee` is `self.transaction_fee` (a percentage).
`tuple(pair.split('-'))` unpacked into two names raises `ValueError` unless
the split has exactly two pieces. -/
def get_buy_sell_all_amount (fee : ℚ) (wallet : List (Symb × ℚ)) (action : TradeState)
    (pair : Symb) (rate : ℚ) : Except String ℚ :=
  if action = TradeState.none then Except.ok 0
  else if rate = 0 then Except.ok 0
  else
    match splitOnChar '-' pair with
    | [symbol_1, symbol_2] =>
      let amount : ℚ :=
        if action = TradeState.buy ∧ (wallet.lookup symbol_1).isSome then
          (wallet.lookup symbol_1).getD 0 / rate
        else if action = TradeState.sell ∧ (wallet.lookup symbol_2).isSome then
          (wallet.lookup symbol_2).getD 0
        else 0
      if amount ≤ 0 then Except.ok 0
      else Except.ok (amount - fee * amount / 100)
    | _ => Except.error "ValueError: not enough values to unpack"

/-- A strategy-engine trade action (§3 of the spec): `{pair, action, amount,
rate, buy_sell_all}`. -/
structure TAction where
  pair : Symb
  action : TradeState
  amount : ℚ
  rate : ℚ
  buy_sell_all : Bool
deriving DecidableEq

/-- Response of `buy_limit`/`sell_limit` (§6): `success`, `message`, and the
order identifier `result['uuid']`. -/
structure OrderResp where
  success : Bool
  uuid : String
  message : String
deriving DecidableEq

/-- The exchange endpoint as seen by `life_trade`: configuration fee plus the
black-box RPC responses.  `getBalances` is indexed by the number of prior
balance fetches, since `life_trade` re-fetches before every action and the
snapshots may differ. -/
structure Env where
  fee : ℚ
  getBalances : Nat → List (Symb × ℚ)
  buy_limit : Symb → ℚ → ℚ → OrderResp
  sell_limit : Symb → ℚ → ℚ → OrderResp

/-- One entry of the exchange-interaction log: which endpoint was hit; order
placements record the submitted action (whose fields give market, amount and
rate). -/
inductive Call where
  | getBalances : Call
  | buyLimit : TAction → Call
  | sellLimit : TAction → Call
deriving DecidableEq

/-- `action.pair.replace('_', self.pair_delimiter)` with the adapter's
delimiter `'-'` (line 191). -/
def marketOf (a : TAction) : Symb :=
  a.pair.map fun c => if c = '_' then '-' else c

/-- The per-action resolution prefix of the `life_trade` loop body
(lines 194-196): balances are fetched, and when `buy_sell_all` is set the
amount is overwritten with the all-in amount (whose computation may raise). -/
def visitResolve (env : Env) (n : Nat) (a : TAction) : Except String TAction :=
  if a.buy_sell_all then
    match get_buy_sell_all_amount env.fee (env.getBalances n) a.action (marketOf a) a.rate with
    | Except.ok amt => Except.ok { a with amount := amt }
    | Except.error e => Except.error e
  else Except.ok a

/-- `BittrexClient.life_trade` (lines 186-239) with Python's list-iterator
semantics made explicit.  The cursor state is `kept ++ rest` with the cursor
at `|kept|`: `kept` holds the elements already behind the cursor, `rest` the
ones still ahead.  Visiting `a`: balances are fetched (logged), the amount
resolved; `actions.remove(action)` on the just-visited element (objects are
identity-distinct) deletes at the cursor position, so the element after it
slides behind the cursor unvisited — modelled by moving `b` into `kept`.
A submitted action is kept whether or not the exchange reports success; on
success the response uuid is appended to the open-orders registry. -/
def lifeTradeAux (env : Env) (kept rest : List TAction) (n : Nat) (ords : List String)
    (log : List Call) : Except String (List TAction × List String × List Call) :=
  match rest with
  | [] => Except.ok (kept, ords, log)
  | a :: rest1 =>
    match visitResolve env n a with
    | Except.error e => Except.error e
    | Except.ok a2 =>
      let log1 := log ++ [Call.getBalances]
      if a2.action = TradeState.none ∨ a2.amount = 0 then
        match rest1 with
        | [] => Except.ok (kept, ords, log1)
        | b :: rest2 => lifeTradeAux env (kept ++ [b]) rest2 (n + 1) ords log1
      else if a2.action = TradeState.buy then
        let resp := env.buy_limit (marketOf a2) a2.amount a2.rate
        lifeTradeAux env (kept ++ [a2]) rest1 (n + 1)
          (if resp.success then ords ++ [resp.uuid] else ords) (log1 ++ [Call.buyLimit a2])
      else if a2.action = TradeState.sell then
        let resp := env.sell_limit (marketOf a2) a2.amount a2.rate
        lifeTradeAux env (kept ++ [a2]) rest1 (n + 1)
          (if resp.success then ords ++ [resp.uuid] else ords) (log1 ++ [Call.sellLimit a2])
      else lifeTradeAux env (kept ++ [a2]) rest1 (n + 1) ords log1

/-- `life_trade` on a fresh iterator: returns the surviving action list, the
open-orders registry (initially `openOrders`), and the exchange-call log. -/
def lifeTrade (env : Env) (openOrders : List String) (actions : List TAction) :
    Except String (List TAction × List String × List Call) :=
  lifeTradeAux env [] actions 0 openOrders []

/-- The order identifiers that `life_trade` appends for a given call log: one
`uuid` per placement call whose exchange response has `success == true`. -/
def orderUuids (env : Env) (log : List Call) : List String :=
  log.filterMap fun c =>
    match c with
    | Call.getBalances => Option.none
    | Call.buyLimit a =>
      let resp := env.buy_limit (marketOf a) a.amount a.rate
      if resp.success then some resp.uuid else Option.none
    | Call.sellLimit a =>
      let resp := env.sell_limit (marketOf a) a.amount a.rate
      if resp.success then some resp.uuid else Option.none

/-- The condition under which the `life_trade` loop body removes the visited
action from the list (lines 204-212): resolution succeeds and the resolved
action is a no-op (`action == none`, or amount equal to zero). -/
def removesAtVisit (env : Env) (n : Nat) (a : TAction) : Prop :=
  ∃ a2, visitResolve env n a = Except.ok a2 ∧
    (a2.action = TradeState.none ∨ a2.amount = 0)

lemma pyRangeAux_length {step : Int} (hs : 0 < step) :
    ∀ (fuel : Nat) (start stop : Int), (stop - start).toNat ≤ fuel →
      (pyRangeAux fuel start stop step).length =
        ((stop - start).toNat + (step.toNat - 1)) / step.toNat := by
  intro fuel
  induction fuel with
  | zero =>
    intro start stop hf
    have h0 : (stop - start).toNat = 0 := Nat.le_zero.mp hf
    simp [pyRangeAux, h0, Nat.div_eq_of_lt (by omega : step.toNat - 1 < step.toNat)]
  | succ fuel ih =>
    intro start stop hf
    by_cases hc : start < stop
    · simp only [pyRangeAux, if_pos (⟨hs, hc⟩ : 0 < step ∧ start < stop)]
      rw [List.length_cons, ih (start + step) stop (by omega)]
      have heq : (stop - (start + step)).toNat = (stop - start).toNat - step.toNat := by omega
      rw [heq]
      have hg1 : 1 ≤ (stop - start).toNat := by omega
      have hst : 1 ≤ step.toNat := by omega
      set g := (stop - start).toNat
      set st := step.toNat
      rcases le_or_lt st g with hle | hlt
      · have e1 : g + (st - 1) = (g - st + (st - 1)) + st := by omega
        rw [e1, Nat.add_div_right _ (by omega : 0 < st)]
      · have e2 : g + (st - 1) = (g - 1) + st := by omega
        have e3 : g - st = 0 := by omega
        rw [e2, Nat.add_div_right _ (by omega : 0 < st), e3,
          Nat.div_eq_of_lt (by omega : g - 1 < st), Nat.zero_add,
          Nat.div_eq_of_lt (by omega : st - 1 < st)]
    · have hcond : ¬(0 < step ∧ start < stop) := by
        intro hand
        exact hc hand.2
      simp only [pyRangeAux, if_neg hcond, List.length_nil]
      have h0 : (stop - start).toNat = 0 := by omega
      rw [h0, Nat.zero_add, Nat.div_eq_of_lt (by omega : step.toNat - 1 < step.toNat)]

lemma pyRange_length {start stop step : Int} (hs : 0 < step) :
    (pyRange start stop step).length =
      ((stop - start).toNat + (step.toNat - 1)) / step.toNat :=
  pyRangeAux_length hs _ _ _ (Nat.le_refl _)

lemma pyRangeAux_getElem? {step : Int} :
    ∀ (fuel : Nat) (start stop : Int) (i : Nat),
      i < (pyRangeAux fuel start stop step).length →
      (pyRangeAux fuel start stop step)[i]? = some (start + i * step) := by
  intro fuel
  induction fuel with
  | zero => intro start stop i h; simp [pyRangeAux] at h
  | succ fuel ih =>
    intro start stop i h
    by_cases hc : 0 < step ∧ start < stop
    · have hlist : pyRangeAux (fuel + 1) start stop step
          = start :: pyRangeAux fuel (start + step) stop step := by
        simp only [pyRangeAux, if_pos hc]
      rw [hlist] at h ⊢
      cases i with
      | zero => simp
      | succ i =>
        rw [List.getElem?_cons_succ, ih (start + step) stop i (by simpa using h)]
        congr 1
        push_cast
        ring
    · simp [pyRangeAux, if_neg hc] at h

lemma pyRange_get {start stop step : Int} (i : Nat)
    (h : i < (pyRange start stop step).length) :
    (pyRange start stop step).get ⟨i, h⟩ = start + i * step := by
  have h2 : (pyRange start stop step)[i]? = some (start + i * step) :=
    pyRangeAux_getElem? _ start stop i h
  have h4 : (pyRange start stop step)[i]? = some ((pyRange start stop step)[i]) :=
    List.getElem?_eq_getElem h
  rw [List.get_eq_getElem]
  rw [h4] at h2
  exact Option.some.inj h2

lemma pyRangeAux_mem_ge :
    ∀ (fuel : Nat) (start stop step : Int), ∀ t ∈ pyRangeAux fuel start stop step,
      start ≤ t := by
  intro fuel
  induction fuel with
  | zero => intro _ _ _ t ht; simp [pyRangeAux] at ht
  | succ fuel ih =>
    intro start stop step t ht
    by_cases hc : 0 < step ∧ start < stop
    · simp only [pyRangeAux, if_pos hc, List.mem_cons] at ht
      rcases ht with rfl | ht
      · exact le_refl t
      · have := ih (start + step) stop step t ht
        omega
    · simp [pyRangeAux, if_neg hc] at ht

lemma pyRange_mem_ge (start stop step : Int) :
    ∀ t ∈ pyRange start stop step, start ≤ t :=
  pyRangeAux_mem_ge _ _ _ _

lemma interpolateTickers_ok_dates (raw : List RawTick) :
    ∀ (ts : List Int) (out : List RawTick), interpolateTickers raw ts = Except.ok out →
      List.Forall₂ (fun t c => c.date = t) ts out := by
  intro ts
  induction ts with
  | nil =>
    intro out h
    simp only [interpolateTickers, Except.ok.injEq] at h
    exact h ▸ List.Forall₂.nil
  | cons t ts ih =>
    intro out h
    simp only [interpolateTickers] at h
    rw [if_neg (Nat.not_lt_zero _)] at h
    cases hl : (raw.filter fun e => e.date ≤ t).getLast? with
    | none => rw [hl] at h; simp at h
    | some item =>
      rw [hl] at h
      cases hrec : interpolateTickers raw ts with
      | error e => rw [hrec] at h; simp at h
      | ok out2 =>
        rw [hrec] at h
        rw [Except.ok.injEq] at h
        subst h
        exact List.Forall₂.cons (by simp) (ih out2 hrec)

lemma last_date_max :
    ∀ L : List RawTick, L.Pairwise (fun x y => x.date ≤ y.date) →
      ∀ l, L.getLast? = some l → ∀ x ∈ L, x.date ≤ l.date := by
  intro L
  induction L with
  | nil => intro _ l hl; simp at hl
  | cons a L ih =>
    intro hp l hl x hx
    cases L with
    | nil =>
      simp only [List.getLast?_singleton, Option.some.injEq] at hl
      subst hl
      simp only [List.mem_singleton] at hx
      subst hx
      exact le_refl _
    | cons b L2 =>
      rw [List.getLast?_cons_cons] at hl
      have hp2 := List.pairwise_cons.mp hp
      rcases List.mem_cons.mp hx with rfl | hx2
      · exact hp2.1 l (List.mem_of_getLast?_eq_some hl)
      · exact ih hp2.2 l hl x hx2

lemma interpolateTickers_sorted_spec (raw : List RawTick)
    (hsort : raw.Pairwise fun x y => x.date ≤ y.date) :
    ∀ ts : List Int, (∀ t ∈ ts, ∃ rt ∈ raw, rt.date ≤ t) →
      ∃ out, interpolateTickers raw ts = Except.ok out ∧
        List.Forall₂ (fun t c => c.date = t ∧
          ∃ rt ∈ raw, rt.date ≤ t ∧ (∀ rt2 ∈ raw, rt2.date ≤ t → rt2.date ≤ rt.date) ∧
            c = { rt with date := t }) ts out := by
  intro ts
  induction ts with
  | nil => exact fun _ => ⟨[], rfl, List.Forall₂.nil⟩
  | cons t ts ih =>
    intro hex
    obtain ⟨rt0, hrt0, hle0⟩ := hex t (List.mem_cons_self t ts)
    obtain ⟨out2, hout2, hrel2⟩ := ih fun u hu => hex u (List.mem_cons_of_mem _ hu)
    have hmem : rt0 ∈ raw.filter fun e => e.date ≤ t := by
      simp only [List.mem_filter, decide_eq_true_eq]
      exact ⟨hrt0, hle0⟩
    have hne : (raw.filter fun e => e.date ≤ t) ≠ [] := by
      intro h0
      rw [h0] at hmem
      simp at hmem
    obtain ⟨l, hl⟩ := Option.isSome_iff_exists.mp (List.getLast?_isSome.mpr hne)
    have hlraw : l ∈ raw ∧ l.date ≤ t := by
      have hmeml := List.mem_of_getLast?_eq_some hl
      simp only [List.mem_filter, decide_eq_true_eq] at hmeml
      exact hmeml
    have hmax : ∀ rt2 ∈ raw, rt2.date ≤ t → rt2.date ≤ l.date := by
      intro rt2 h2 hle2
      refine last_date_max _ (hsort.filter _) l hl rt2 ?_
      simp only [List.mem_filter, decide_eq_true_eq]
      exact ⟨h2, hle2⟩
    refine ⟨{ l with date := t } :: out2, ?_, ?_⟩
    · simp only [interpolateTickers]
      rw [if_neg (Nat.not_lt_zero _), hl, hout2]
    · exact List.Forall₂.cons ⟨by simp, l, hlraw.1, hlraw.2, hmax, rfl⟩ hrel2

lemma retainedTicks_pairwise (epoch_start : Int) (tickers : List Tick)
    (h : tickers.Pairwise fun a b => a.T ≤ b.T) :
    (retainedTicks epoch_start tickers).Pairwise fun x y => x.date ≤ y.date := by
  refine List.Pairwise.filterMap _ ?_ h
  intro a a2 hle b hb b2 hb2
  by_cases ha : a.T < epoch_start - 6 * 3600
  · rw [if_pos ha] at hb
    exact absurd hb (by simp)
  · by_cases ha2 : a2.T < epoch_start - 6 * 3600
    · rw [if_pos ha2] at hb2
      exact absurd hb2 (by simp)
    · rw [if_neg ha] at hb
      rw [if_neg ha2] at hb2
      simp only [Option.mem_def, Option.some.injEq] at hb hb2
      subst hb
      subst hb2
      simpa [mkRawTicker] using hle

lemma retainedTicks_filter_stale (epoch_start : Int) (tickers : List Tick) :
    retainedTicks epoch_start (tickers.filter fun t => epoch_start - 6 * 3600 ≤ t.T) =
      retainedTicks epoch_start tickers := by
  induction tickers with
  | nil => rfl
  | cons t ts ih =>
    by_cases hc : t.T < epoch_start - 6 * 3600
    · have h1 : ¬(epoch_start - 6 * 3600 ≤ t.T) := by omega
      have h2 : ¬(epoch_start ≤ t.T + 21600) := by omega
      have h3 : t.T < epoch_start - 21600 := by omega
      simp [retainedTicks, List.filter_cons, List.filterMap_cons, hc, h1, h2, h3]
      simp [retainedTicks] at ih
      exact ih
    · have h1 : epoch_start - 6 * 3600 ≤ t.T := by omega
      have h2 : epoch_start ≤ t.T + 21600 := by omega
      have h3 : ¬(t.T < epoch_start - 21600) := by omega
      simp [retainedTicks, List.filter_cons, List.filterMap_cons, hc, h1, h2, h3]
      simp [retainedTicks] at ih
      exact ih

/-- **C1** (counterexample).  The claim says the emitted candle copies the raw
tick with the *largest* timestamp `<= t`.  With the two retained ticks given
in reverse timestamp order (timestamps 300 then 0) and the single grid point
`t = 300`, the code emits `items[-1]` — the *last retained tick in input
order* (timestamp 0, whose `open` is 1) — although the retained tick with the
largest timestamp `<= 300` is the one with timestamp 300, whose `open` is 2. -/
theorem return_candles_not_largest_timestamp :
    return_candles (some [⟨300, 2, 2, 2, 2, 0, 0⟩, ⟨0, 1, 1, 1, 1, 0, 0⟩]) 300 600 300 =
      Except.ok [⟨1, 1, 1, 1, 0, 0, 300, 0⟩] ∧
    retainedTicks 300 [⟨300, 2, 2, 2, 2, 0, 0⟩, ⟨0, 1, 1, 1, 1, 0, 0⟩] =
      [⟨2, 2, 2, 2, 0, 0, 300, 0⟩, ⟨1, 1, 1, 1, 0, 0, 0, 0⟩] ∧
    (⟨1, 1, 1, 1, 0, 0, 300, 0⟩ : RawTick).«open» = 1 ∧
    (⟨2, 2, 2, 2, 0, 0, 300, 0⟩ : RawTick).«open» = 2 ∧
    (⟨2, 2, 2, 2, 0, 0, 300, 0⟩ : RawTick).date = 300 ∧
    (1 : ℚ) ≠ 2 :=
  ⟨rfl, rfl, rfl, rfl, rfl, by norm_num⟩

/-- **C1** (amended).  For raw ticks delivered in nondecreasing timestamp
order (as the exchange does), and provided at least one retained tick has
timestamp `<= epoch_start` (otherwise the IndexError defect recorded for C3
aborts the whole call), `return_candles` succeeds and emits, for the k-th
grid point `t`, a candle equal to a retained raw tick of maximal timestamp
`<= t` (the last such in input order) with its timestamp field overwritten
to `t`. -/
theorem return_candles_forward_fill
    (tickers : List Tick) (epoch_start epoch_end period : Int)
    (hsorted : tickers.Pairwise fun a b => a.T ≤ b.T)
    (hhist : ∃ rt ∈ retainedTicks epoch_start tickers, rt.date ≤ epoch_start) :
    ∃ out, return_candles (some tickers) epoch_start epoch_end period = Except.ok out ∧
      List.Forall₂ (fun t c => c.date = t ∧
          ∃ rt ∈ retainedTicks epoch_start tickers, rt.date ≤ t ∧
            (∀ rt2 ∈ retainedTicks epoch_start tickers, rt2.date ≤ t → rt2.date ≤ rt.date) ∧
            c = { rt with date := t })
        (pyRange epoch_start epoch_end period) out := by
  obtain ⟨rt0, hrt0, hle0⟩ := hhist
  have hsort2 := retainedTicks_pairwise epoch_start tickers hsorted
  have hex : ∀ t ∈ pyRange epoch_start epoch_end period,
      ∃ rt ∈ retainedTicks epoch_start tickers, rt.date ≤ t := fun t ht =>
    ⟨rt0, hrt0, le_trans hle0 (pyRange_mem_ge _ _ _ t ht)⟩
  obtain ⟨out, hout, hrel⟩ := interpolateTickers_sorted_spec _ hsort2 _ hex
  exact ⟨out, hout, hrel⟩

/-- Witness for C1 (amended), on the spec's own example: ticks at 0 (open 1)
and 300 (open 2), grid `0,150,300,450` with period 150; the instantiated
conclusion holds and the concrete opens are `1,1,2,2`. -/
theorem return_candles_forward_fill_witness :
    (∃ out, return_candles (some [⟨0, 1, 1, 1, 1, 0, 0⟩, ⟨300, 2, 2, 2, 2, 0, 0⟩]) 0 600 150 =
        Except.ok out ∧
      List.Forall₂ (fun t c => c.date = t ∧
          ∃ rt ∈ retainedTicks 0 [⟨0, 1, 1, 1, 1, 0, 0⟩, ⟨300, 2, 2, 2, 2, 0, 0⟩], rt.date ≤ t ∧
            (∀ rt2 ∈ retainedTicks 0 [⟨0, 1, 1, 1, 1, 0, 0⟩, ⟨300, 2, 2, 2, 2, 0, 0⟩],
              rt2.date ≤ t → rt2.date ≤ rt.date) ∧
            c = { rt with date := t })
        (pyRange 0 600 150) out) ∧
    return_candles (some [⟨0, 1, 1, 1, 1, 0, 0⟩, ⟨300, 2, 2, 2, 2, 0, 0⟩]) 0 600 150 =
      Except.ok [⟨1, 1, 1, 1, 0, 0, 0, 0⟩, ⟨1, 1, 1, 1, 0, 0, 150, 0⟩,
        ⟨2, 2, 2, 2, 0, 0, 300, 0⟩, ⟨2, 2, 2, 2, 0, 0, 450, 0⟩] :=
  ⟨return_candles_forward_fill [⟨0, 1, 1, 1, 1, 0, 0⟩, ⟨300, 2, 2, 2, 2, 0, 0⟩] 0 600 150
      (by decide) (by decide), rfl⟩

/-- **C2**.  Whenever `return_candles` returns a candle sequence (feed
present, run not aborted), with `period > 0` and `epoch_start < epoch_end`,
the sequence has exactly `ceil((epoch_end - epoch_start)/period)` candles
(written with natural ceiling division) and the i-th candle's timestamp is
`epoch_start + i*period` — the grid covers `[epoch_start, epoch_end)` at
`period` spacing with no gaps. -/
theorem return_candles_count_and_grid
    (tickers : List Tick) (epoch_start epoch_end period : Int) (out : List RawTick)
    (hp : 0 < period) (hlt : epoch_start < epoch_end)
    (h : return_candles (some tickers) epoch_start epoch_end period = Except.ok out) :
    out.length = ((epoch_end - epoch_start).toNat + (period.toNat - 1)) / period.toNat ∧
    ∀ i : Nat, ∀ hi : i < out.length,
      (out.get ⟨i, hi⟩).date = epoch_start + i * period := by
  have hdates := interpolateTickers_ok_dates (retainedTicks epoch_start tickers)
    (pyRange epoch_start epoch_end period) out h
  have hlen := hdates.length_eq
  constructor
  · rw [← hlen, pyRange_length hp]
  · intro i hi
    have hi2 : i < (pyRange epoch_start epoch_end period).length := by
      rw [hlen]
      exact hi
    have hrel := (List.forall₂_iff_get.mp hdates).2 i hi2 hi
    rw [hrel, pyRange_get i hi2]

/-- Witness for C2 at a concrete input: one tick at epoch 0, grid of period
150 on `[0, 600)`: 4 candles at timestamps `0,150,300,450`. -/
theorem return_candles_count_and_grid_witness :
    (0 : Int) < 150 ∧ (0 : Int) < 600 ∧
    (([⟨1, 1, 1, 1, 0, 0, 0, 0⟩, ⟨1, 1, 1, 1, 0, 0, 150, 0⟩,
        ⟨1, 1, 1, 1, 0, 0, 300, 0⟩, ⟨1, 1, 1, 1, 0, 0, 450, 0⟩] : List RawTick).length =
        ((600 - 0 : Int).toNat + ((150 : Int).toNat - 1)) / (150 : Int).toNat ∧
      ∀ i : Nat, ∀ hi : i < ([⟨1, 1, 1, 1, 0, 0, 0, 0⟩, ⟨1, 1, 1, 1, 0, 0, 150, 0⟩,
          ⟨1, 1, 1, 1, 0, 0, 300, 0⟩, ⟨1, 1, 1, 1, 0, 0, 450, 0⟩] : List RawTick).length,
        (([⟨1, 1, 1, 1, 0, 0, 0, 0⟩, ⟨1, 1, 1, 1, 0, 0, 150, 0⟩,
            ⟨1, 1, 1, 1, 0, 0, 300, 0⟩, ⟨1, 1, 1, 1, 0, 0, 450, 0⟩] : List RawTick).get
          ⟨i, hi⟩).date = 0 + i * 150) :=
  ⟨by decide, by decide,
    return_candles_count_and_grid [⟨0, 1, 1, 1, 1, 0, 0⟩] 0 600 150 _
      (by decide) (by decide) rfl⟩

/-- **C3** (code-bug evidence).  The unavailable feed (`tickers is None`)
does return an empty result, but a grid point with no eligible retained tick
is *not* silently skipped: the guard `len(items) < 0` can never hold, so the
code reaches `items[-1]` on an empty list and raises `IndexError` — here on
the empty raw-tick list with `epoch_start=0 < epoch_end=300`, period 300. -/
theorem return_candles_empty_feed_behavior :
    return_candles (some []) 0 300 300 = Except.error "IndexError: list index out of range" ∧
    return_candles Option.none 0 300 300 = Except.ok [] :=
  ⟨rfl, rfl⟩

/-- **C9**.  `return_candles` discards exactly the raw ticks strictly older
than `epoch_start - 6*3600` (a tick exactly at the boundary is retained by
the non-strict filter), so its result on any input equals its result on the
same input with those stale ticks removed — both for the retained working
buffer and for the final candle sequence (error or not). -/
theorem return_candles_stale_prefilter (tickers : List Tick)
    (epoch_start epoch_end period : Int) :
    return_candles (some (tickers.filter fun t => epoch_start - 6 * 3600 ≤ t.T))
        epoch_start epoch_end period =
      return_candles (some tickers) epoch_start epoch_end period ∧
    retainedTicks epoch_start (tickers.filter fun t => epoch_start - 6 * 3600 ≤ t.T) =
      retainedTicks epoch_start tickers := by
  constructor
  · simp only [return_candles, retainedTicks_filter_stale]
  · exact retainedTicks_filter_stale _ _

/-- **C4** (counterexample).  The claim's concrete call passes the internal
underscore pair `BTC_USDT`, but `get_buy_sell_all_amount` splits on the
adapter's exchange delimiter `'-'` (`self.pair_delimiter`), so
`tuple(pair.split('-'))` yields one piece and the two-name unpacking raises
`ValueError` instead of returning `0.495`. -/
theorem get_buy_sell_all_amount_underscore_pair :
    get_buy_sell_all_amount 1 [("BTC".toList, 1)] TradeState.buy "BTC_USDT".toList 2 =
      Except.error "ValueError: not enough values to unpack" ∧
    (Except.error "ValueError: not enough values to unpack" : Except String ℚ) ≠
      Except.ok (99 / 200) :=
  ⟨rfl, fun h => Except.noConfusion h⟩

/-- **C4** (amended).  For a pair in the exchange hyphen format (splitting on
`'-'` into exactly base and quote): 0 on `action == none`, 0 on `rate == 0`,
`balances[base]/rate` less the proportional fee for a buy with the base
present, `balances[quote]` less the fee for a sell with the quote present,
0 on an absent asset, and a pre-fee amount `<= 0` short-circuits to 0 with no
fee applied. -/
theorem get_buy_sell_all_amount_formula
    (fee rate : ℚ) (wallet : List (Symb × ℚ)) (action : TradeState)
    (pair symbol_1 symbol_2 : Symb)
    (hsplit : splitOnChar '-' pair = [symbol_1, symbol_2]) :
    (action = TradeState.none →
      get_buy_sell_all_amount fee wallet action pair rate = Except.ok 0) ∧
    (rate = 0 → get_buy_sell_all_amount fee wallet action pair rate = Except.ok 0) ∧
    (∀ assets : ℚ, action = TradeState.buy → wallet.lookup symbol_1 = some assets →
      rate ≠ 0 →
      get_buy_sell_all_amount fee wallet action pair rate =
        Except.ok (if assets / rate ≤ 0 then 0
          else assets / rate - fee * (assets / rate) / 100)) ∧
    (∀ assets : ℚ, action = TradeState.sell → wallet.lookup symbol_2 = some assets →
      rate ≠ 0 →
      get_buy_sell_all_amount fee wallet action pair rate =
        Except.ok (if assets ≤ 0 then 0 else assets - fee * assets / 100)) ∧
    (action = TradeState.buy → wallet.lookup symbol_1 = Option.none → rate ≠ 0 →
      get_buy_sell_all_amount fee wallet action pair rate = Except.ok 0) ∧
    (action = TradeState.sell → wallet.lookup symbol_2 = Option.none → rate ≠ 0 →
      get_buy_sell_all_amount fee wallet action pair rate = Except.ok 0) := by
  refine ⟨?_, ?_, ?_, ?_, ?_, ?_⟩
  · intro ha
    subst ha
    simp [get_buy_sell_all_amount]
  · intro hr
    subst hr
    simp [get_buy_sell_all_amount]
  · intro assets ha hl hr
    subst ha
    simp only [get_buy_sell_all_amount, hsplit, hl, hr]
    simp [hr]
    split_ifs <;> rfl
  · intro assets ha hl hr
    subst ha
    simp only [get_buy_sell_all_amount, hsplit, hl, hr]
    simp [hr]
    split_ifs <;> rfl
  · intro ha hl hr
    subst ha
    simp [get_buy_sell_all_amount, hsplit, hl, hr]
  · intro ha hl hr
    subst ha
    simp [get_buy_sell_all_amount, hsplit, hl, hr]

/-- Witness for C4 (amended): the corrected concrete call, with the pair in
exchange format `BTC-USDT`, gives `0.5 - 0.5*1/100 = 0.495 = 99/200`. -/
theorem get_buy_sell_all_amount_formula_witness :
    get_buy_sell_all_amount 1 [("BTC".toList, 1)] TradeState.buy "BTC-USDT".toList 2 =
      Except.ok (99 / 200) := by
  have h := (get_buy_sell_all_amount_formula 1 2 [("BTC".toList, 1)] TradeState.buy
    "BTC-USDT".toList "BTC".toList "USDT".toList (by decide)).2.2.1 1 rfl (by decide)
    (by norm_num)
  rw [h, if_neg (by norm_num)]
  norm_num

lemma fee_net_nonneg (fee A : ℚ) (hfee : fee ≤ 100) (h : ¬A ≤ 0) :
    0 ≤ A - fee * A / 100 := by
  push_neg at h
  nlinarith [mul_le_mul_of_nonneg_right hfee (le_of_lt h)]

/-- **C5** (counterexample).  Nothing clamps the fee: with a transaction fee
of 200 percent, a buy resolving to amount 1 returns `1 - 200*1/100 = -1`,
a negative amount. -/
theorem get_buy_sell_all_amount_negative_on_large_fee :
    get_buy_sell_all_amount 200 [("BTC".toList, 1)] TradeState.buy "BTC-USDT".toList 1 =
      Except.ok (-1) ∧ (-1 : ℚ) < 0 := by
  constructor
  · simp [get_buy_sell_all_amount, splitOnChar]
    norm_num
  · norm_num

/-- **C5** (amended).  Provided the configured fee percentage is at most 100,
every value `get_buy_sell_all_amount` returns is nonnegative: the fee
deduction cannot drive the result below zero. -/
theorem get_buy_sell_all_amount_nonneg
    (fee rate : ℚ) (wallet : List (Symb × ℚ)) (action : TradeState) (pair : Symb) (q : ℚ)
    (hfee : fee ≤ 100)
    (h : get_buy_sell_all_amount fee wallet action pair rate = Except.ok q) :
    0 ≤ q := by
  unfold get_buy_sell_all_amount at h
  split_ifs at h with h1 h2
  · simp only [Except.ok.injEq] at h
    exact h ▸ le_refl 0
  · simp only [Except.ok.injEq] at h
    exact h ▸ le_refl 0
  · cases hsp : splitOnChar '-' pair with
    | nil => rw [hsp] at h; simp at h
    | cons s1 rest =>
      cases rest with
      | nil => rw [hsp] at h; simp at h
      | cons s2 rest2 =>
        cases rest2 with
        | cons s3 rest3 => rw [hsp] at h; simp at h
        | nil =>
          rw [hsp] at h
          dsimp only at h
          split_ifs at h <;> simp only [Except.ok.injEq] at h <;> rw [← h]
          all_goals
            first
            | exact le_refl 0
            | exact fee_net_nonneg _ _ hfee (by assumption)

/-- Witness for C5 (amended): a 50 percent fee on a buy of `3/2` leaves
`3/4 ≥ 0`. -/
theorem get_buy_sell_all_amount_nonneg_witness : (0 : ℚ) ≤ 3 / 4 :=
  get_buy_sell_all_amount_nonneg 50 2 [("BTC".toList, 3)] TradeState.buy
    "BTC-USDT".toList (3 / 4) (by norm_num)
    (by simp [get_buy_sell_all_amount, splitOnChar]; norm_num)

lemma volume_foldl (parseUTC : String → Int) (cutoff : Int) :
    ∀ (l : List TradeRecord) (acc : ℚ),
      l.foldl
        (fun volume item =>
          if parseUTC item.TimeStamp ≥ cutoff then volume + item.Quantity else volume)
        acc =
      acc + ((l.filter fun r => cutoff ≤ parseUTC r.TimeStamp).map
        (fun r => r.Quantity)).sum := by
  intro l
  induction l with
  | nil => intro acc; simp
  | cons r l ih =>
    intro acc
    by_cases hc : cutoff ≤ parseUTC r.TimeStamp
    · rw [List.foldl_cons, if_pos hc, List.filter_cons, if_pos (by simpa using hc)]
      simp only [List.map_cons, List.sum_cons]
      rw [ih]
      ring
    · rw [List.foldl_cons, if_neg hc, List.filter_cons, if_neg (by simpa using hc)]
      exact ih acc

/-- **C6** (counterexample).  The code checks only the lower bound of the
window: a single record whose parsed timestamp is 100 seconds *after* `now`
(outside `[now - 60, now]`) still contributes its whole quantity, while the
spec's window sum is 0. -/
theorem get_volume_from_history_counts_future :
    get_volume_from_history (fun _ => 100) 0 [⟨"t", 5⟩] 1 = 5 ∧
    spec_window_volume (fun _ => 100) 0 [⟨"t", 5⟩] 1 = 0 ∧
    (5 : ℚ) ≠ 0 := by
  refine ⟨?_, ?_, by norm_num⟩
  · simp [get_volume_from_history]
  · simp [spec_window_volume]

/-- **C6** (amended).  `get_volume_from_history` sums the quantities of the
records with parsed UTC timestamp `>= now - candle_size*60`, with no upper
bound; hence it equals the claim's window sum exactly when no record is
timestamped after `now` (regardless of the input order). -/
theorem get_volume_from_history_window
    (parseUTC : String → Int) (epoch_now : Int) (history : List TradeRecord)
    (candle_size : Int)
    (h : ∀ r ∈ history, parseUTC r.TimeStamp ≤ epoch_now) :
    get_volume_from_history parseUTC epoch_now history candle_size =
      spec_window_volume parseUTC epoch_now history candle_size := by
  simp only [get_volume_from_history, spec_window_volume]
  rw [volume_foldl, zero_add]
  have hf := @List.filter_congr TradeRecord
    (fun r => decide (epoch_now - candle_size * 60 ≤ parseUTC r.TimeStamp))
    (fun r => decide (epoch_now - candle_size * 60 ≤ parseUTC r.TimeStamp ∧
      parseUTC r.TimeStamp ≤ epoch_now))
    history (fun r hr => by simp [h r hr])
  rw [hf]

/-- Witness for C6 (amended), on the spec's test vector: records 30 and 90
minutes old, window 60 minutes: volume 5 (the 90-minute record excluded). -/
theorem get_volume_from_history_window_witness :
    get_volume_from_history (fun s => if s = "a" then -1800 else -5400) 0
        [⟨"a", 5⟩, ⟨"b", 7⟩] 60 =
      spec_window_volume (fun s => if s = "a" then -1800 else -5400) 0
        [⟨"a", 5⟩, ⟨"b", 7⟩] 60 ∧
    get_volume_from_history (fun s => if s = "a" then -1800 else -5400) 0
        [⟨"a", 5⟩, ⟨"b", 7⟩] 60 = 5 :=
  ⟨get_volume_from_history_window _ 0 _ 60 (by decide),
    by simp [get_volume_from_history]⟩

lemma lifeTradeAux_frame (env : Env) :
    ∀ (m : Nat) (rest : List TAction), rest.length ≤ m →
      ∀ (kept : List TAction) (n : Nat) (ords : List String) (log : List Call),
        lifeTradeAux env kept rest n ords log =
          (lifeTradeAux env [] rest n [] []).map
            (fun r => (kept ++ r.1, ords ++ r.2.1, log ++ r.2.2)) := by
  intro m
  induction m with
  | zero =>
    intro rest hlen kept n ords log
    have hnil : rest = [] := List.length_eq_zero.mp (Nat.le_zero.mp hlen)
    subst hnil
    simp [lifeTradeAux, Except.map]
  | succ m ih =>
    intro rest hlen kept n ords log
    cases rest with
    | nil => simp [lifeTradeAux, Except.map]
    | cons a rest1 =>
      simp only [lifeTradeAux]
      cases hv : visitResolve env n a with
      | error e => simp [Except.map]
      | ok a2 =>
        dsimp only
        by_cases hrem : a2.action = TradeState.none ∨ a2.amount = 0
        · rw [if_pos hrem, if_pos hrem]
          cases rest1 with
          | nil => simp [Except.map]
          | cons b rest2 =>
            have hb : rest2.length ≤ m := by
              simp only [List.length_cons] at hlen
              omega
            dsimp only
            rw [ih rest2 hb (kept ++ [b]) (n + 1) ords (log ++ [Call.getBalances])]
            simp only [List.nil_append]
            rw [ih rest2 hb [b] (n + 1) [] [Call.getBalances]]
            rcases haux : lifeTradeAux env [] rest2 (n + 1) [] [] with e | r
            · simp [Except.map]
            · simp [Except.map]
        · rw [if_neg hrem, if_neg hrem]
          have hb : rest1.length ≤ m := by
            simp only [List.length_cons] at hlen
            omega
          by_cases hbuy : a2.action = TradeState.buy
          · rw [if_pos hbuy, if_pos hbuy]
            by_cases hs : (env.buy_limit (marketOf a2) a2.amount a2.rate).success
            · rw [if_pos hs, if_pos hs]
              rw [ih rest1 hb (kept ++ [a2]) (n + 1)
                (ords ++ [(env.buy_limit (marketOf a2) a2.amount a2.rate).uuid])
                ((log ++ [Call.getBalances]) ++ [Call.buyLimit a2])]
              simp only [List.nil_append, List.cons_append]
              rw [ih rest1 hb [a2] (n + 1)
                [(env.buy_limit (marketOf a2) a2.amount a2.rate).uuid]
                [Call.getBalances, Call.buyLimit a2]]
              rcases haux : lifeTradeAux env [] rest1 (n + 1) [] [] with e | r
              · simp [Except.map]
              · simp [Except.map]
            · rw [if_neg hs, if_neg hs]
              rw [ih rest1 hb (kept ++ [a2]) (n + 1) ords
                ((log ++ [Call.getBalances]) ++ [Call.buyLimit a2])]
              simp only [List.nil_append, List.cons_append]
              rw [ih rest1 hb [a2] (n + 1) [] [Call.getBalances, Call.buyLimit a2]]
              rcases haux : lifeTradeAux env [] rest1 (n + 1) [] [] with e | r
              · simp [Except.map]
              · simp [Except.map]
          · rw [if_neg hbuy, if_neg hbuy]
            by_cases hsell : a2.action = TradeState.sell
            · rw [if_pos hsell, if_pos hsell]
              by_cases hs : (env.sell_limit (marketOf a2) a2.amount a2.rate).success
              · rw [if_pos hs, if_pos hs]
                rw [ih rest1 hb (kept ++ [a2]) (n + 1)
                  (ords ++ [(env.sell_limit (marketOf a2) a2.amount a2.rate).uuid])
                  ((log ++ [Call.getBalances]) ++ [Call.sellLimit a2])]
                simp only [List.nil_append, List.cons_append]
                rw [ih rest1 hb [a2] (n + 1)
                  [(env.sell_limit (marketOf a2) a2.amount a2.rate).uuid]
                  [Call.getBalances, Call.sellLimit a2]]
                rcases haux : lifeTradeAux env [] rest1 (n + 1) [] [] with e | r
                · simp [Except.map]
                · simp [Except.map]
              · rw [if_neg hs, if_neg hs]
                rw [ih rest1 hb (kept ++ [a2]) (n + 1) ords
                  ((log ++ [Call.getBalances]) ++ [Call.sellLimit a2])]
                simp only [List.nil_append, List.cons_append]
                rw [ih rest1 hb [a2] (n + 1) [] [Call.getBalances, Call.sellLimit a2]]
                rcases haux : lifeTradeAux env [] rest1 (n + 1) [] [] with e | r
                · simp [Except.map]
                · simp [Except.map]
            · rw [if_neg hsell, if_neg hsell]
              rw [ih rest1 hb (kept ++ [a2]) (n + 1) ords (log ++ [Call.getBalances])]
              simp only [List.nil_append]
              rw [ih rest1 hb [a2] (n + 1) [] [Call.getBalances]]
              rcases haux : lifeTradeAux env [] rest1 (n + 1) [] [] with e | r
              · simp [Except.map]
              · simp [Except.map]

/-- Well-formedness of a `life_trade` call log against the surviving action
list: every logged order placement was submitted for an action that survives
in the returned list, whose `action` matches the endpoint used, and whose
amount is nonzero. -/
def logCallsOk (A : List TAction) (L : List Call) : Prop :=
  ∀ a : TAction,
    (Call.buyLimit a ∈ L → a ∈ A ∧ a.action = TradeState.buy ∧ a.amount ≠ 0) ∧
    (Call.sellLimit a ∈ L → a ∈ A ∧ a.action = TradeState.sell ∧ a.amount ≠ 0)

lemma orderUuids_append (env : Env) (l1 l2 : List Call) :
    orderUuids env (l1 ++ l2) = orderUuids env l1 ++ orderUuids env l2 :=
  List.filterMap_append l1 l2 _

lemma logCallsOk_append (K A2 : List TAction) (L0 L2 : List Call)
    (h1 : logCallsOk K L0) (h2 : logCallsOk A2 L2) :
    logCallsOk (K ++ A2) (L0 ++ L2) := by
  intro a
  constructor
  · intro hmem
    rcases List.mem_append.mp hmem with hm | hm
    · obtain ⟨hA, hrest⟩ := (h1 a).1 hm
      exact ⟨List.mem_append_left _ hA, hrest⟩
    · obtain ⟨hA, hrest⟩ := (h2 a).1 hm
      exact ⟨List.mem_append_right _ hA, hrest⟩
  · intro hmem
    rcases List.mem_append.mp hmem with hm | hm
    · obtain ⟨hA, hrest⟩ := (h1 a).2 hm
      exact ⟨List.mem_append_left _ hA, hrest⟩
    · obtain ⟨hA, hrest⟩ := (h2 a).2 hm
      exact ⟨List.mem_append_right _ hA, hrest⟩

lemma lifeTradeAux_run_spec (env : Env) :
    ∀ (m : Nat) (rest : List TAction), rest.length ≤ m →
      ∀ (n : Nat) (A : List TAction) (O : List String) (L : List Call),
        lifeTradeAux env [] rest n [] [] = Except.ok (A, O, L) →
        O = orderUuids env L ∧ logCallsOk A L := by
  intro m
  induction m with
  | zero =>
    intro rest hlen n A O L h
    have hnil : rest = [] := List.length_eq_zero.mp (Nat.le_zero.mp hlen)
    subst hnil
    simp only [lifeTradeAux, Except.ok.injEq, Prod.mk.injEq] at h
    obtain ⟨hA, hO, hL⟩ := h
    subst hA
    subst hO
    subst hL
    exact ⟨rfl, fun a => by simp⟩
  | succ m ih =>
    intro rest hlen n A O L h
    cases rest with
    | nil =>
      simp only [lifeTradeAux, Except.ok.injEq, Prod.mk.injEq] at h
      obtain ⟨hA, hO, hL⟩ := h
      subst hA
      subst hO
      subst hL
      exact ⟨rfl, fun a => by simp⟩
    | cons a rest1 =>
      simp only [lifeTradeAux] at h
      cases hv : visitResolve env n a with
      | error e => rw [hv] at h; simp at h
      | ok a2 =>
        rw [hv] at h
        dsimp only at h
        by_cases hrem : a2.action = TradeState.none ∨ a2.amount = 0
        · rw [if_pos hrem] at h
          cases rest1 with
          | nil =>
            dsimp only at h
            simp only [List.nil_append, Except.ok.injEq, Prod.mk.injEq] at h
            obtain ⟨hA, hO, hL⟩ := h
            subst hA
            subst hO
            subst hL
            refine ⟨by simp [orderUuids], fun a3 => ?_⟩
            constructor <;> intro hmem <;> simp at hmem
          | cons b rest2 =>
            dsimp only at h
            simp only [List.nil_append] at h
            rw [lifeTradeAux_frame env rest2.length rest2 (le_refl _) [b] (n + 1) []
              [Call.getBalances]] at h
            rcases haux : lifeTradeAux env [] rest2 (n + 1) [] [] with e | r
            · rw [haux] at h
              simp [Except.map] at h
            · rw [haux] at h
              obtain ⟨A2, O2, L2⟩ := r
              simp only [Except.map, Except.ok.injEq, Prod.mk.injEq] at h
              obtain ⟨hA, hO, hL⟩ := h
              subst hA
              subst hO
              subst hL
              have hb : rest2.length ≤ m := by
                simp only [List.length_cons] at hlen
                omega
              obtain ⟨ihO, ihm⟩ := ih rest2 hb (n + 1) A2 O2 L2 haux
              constructor
              · rw [orderUuids_append, ← ihO]
                simp [orderUuids]
              · refine logCallsOk_append [b] A2 [Call.getBalances] L2 ?_ ihm
                intro a3
                constructor <;> intro hmem <;> simp at hmem
        · rw [if_neg hrem] at h
          push_neg at hrem
          obtain ⟨hnone, hamt⟩ := hrem
          have hb : rest1.length ≤ m := by
            simp only [List.length_cons] at hlen
            omega
          by_cases hbuy : a2.action = TradeState.buy
          · rw [if_pos hbuy] at h
            simp only [List.nil_append, List.cons_append] at h
            by_cases hs : (env.buy_limit (marketOf a2) a2.amount a2.rate).success
            · rw [if_pos hs] at h
              rw [lifeTradeAux_frame env rest1.length rest1 (le_refl _) [a2] (n + 1)
                [(env.buy_limit (marketOf a2) a2.amount a2.rate).uuid]
                [Call.getBalances, Call.buyLimit a2]] at h
              rcases haux : lifeTradeAux env [] rest1 (n + 1) [] [] with e | r
              · rw [haux] at h
                simp [Except.map] at h
              · rw [haux] at h
                obtain ⟨A2, O2, L2⟩ := r
                simp only [Except.map, Except.ok.injEq, Prod.mk.injEq] at h
                obtain ⟨hA, hO, hL⟩ := h
                subst hA
                subst hO
                subst hL
                obtain ⟨ihO, ihm⟩ := ih rest1 hb (n + 1) A2 O2 L2 haux
                constructor
                · rw [orderUuids_append, ← ihO]
                  simp [orderUuids, List.filterMap_cons, hs]
                · refine logCallsOk_append [a2] A2 [Call.getBalances, Call.buyLimit a2] L2 ?_ ihm
                  intro a3
                  constructor
                  · intro hmem
                    simp at hmem
                    subst hmem
                    exact ⟨by simp, hbuy, hamt⟩
                  · intro hmem
                    simp at hmem
            · rw [if_neg hs] at h
              rw [lifeTradeAux_frame env rest1.length rest1 (le_refl _) [a2] (n + 1) []
                [Call.getBalances, Call.buyLimit a2]] at h
              rcases haux : lifeTradeAux env [] rest1 (n + 1) [] [] with e | r
              · rw [haux] at h
                simp [Except.map] at h
              · rw [haux] at h
                obtain ⟨A2, O2, L2⟩ := r
                simp only [Except.map, Except.ok.injEq, Prod.mk.injEq] at h
                obtain ⟨hA, hO, hL⟩ := h
                subst hA
                subst hO
                subst hL
                obtain ⟨ihO, ihm⟩ := ih rest1 hb (n + 1) A2 O2 L2 haux
                constructor
                · rw [orderUuids_append, ← ihO]
                  simp [orderUuids, List.filterMap_cons, hs]
                · refine logCallsOk_append [a2] A2 [Call.getBalances, Call.buyLimit a2] L2 ?_ ihm
                  intro a3
                  constructor
                  · intro hmem
                    simp at hmem
                    subst hmem
                    exact ⟨by simp, hbuy, hamt⟩
                  · intro hmem
                    simp at hmem
          · rw [if_neg hbuy] at h
            by_cases hsell : a2.action = TradeState.sell
            · rw [if_pos hsell] at h
              simp only [List.nil_append, List.cons_append] at h
              by_cases hs : (env.sell_limit (marketOf a2) a2.amount a2.rate).success
              · rw [if_pos hs] at h
                rw [lifeTradeAux_frame env rest1.length rest1 (le_refl _) [a2] (n + 1)
                  [(env.sell_limit (marketOf a2) a2.amount a2.rate).uuid]
                  [Call.getBalances, Call.sellLimit a2]] at h
                rcases haux : lifeTradeAux env [] rest1 (n + 1) [] [] with e | r
                · rw [haux] at h
                  simp [Except.map] at h
                · rw [haux] at h
                  obtain ⟨A2, O2, L2⟩ := r
                  simp only [Except.map, Except.ok.injEq, Prod.mk.injEq] at h
                  obtain ⟨hA, hO, hL⟩ := h
                  subst hA
                  subst hO
                  subst hL
                  obtain ⟨ihO, ihm⟩ := ih rest1 hb (n + 1) A2 O2 L2 haux
                  constructor
                  · rw [orderUuids_append, ← ihO]
                    simp [orderUuids, List.filterMap_cons, hs]
                  · refine logCallsOk_append [a2] A2 [Call.getBalances, Call.sellLimit a2] L2
                      ?_ ihm
                    intro a3
                    constructor
                    · intro hmem
                      simp at hmem
                    · intro hmem
                      simp at hmem
                      subst hmem
                      exact ⟨by simp, hsell, hamt⟩
              · rw [if_neg hs] at h
                rw [lifeTradeAux_frame env rest1.length rest1 (le_refl _) [a2] (n + 1) []
                  [Call.getBalances, Call.sellLimit a2]] at h
                rcases haux : lifeTradeAux env [] rest1 (n + 1) [] [] with e | r
                · rw [haux] at h
                  simp [Except.map] at h
                · rw [haux] at h
                  obtain ⟨A2, O2, L2⟩ := r
                  simp only [Except.map, Except.ok.injEq, Prod.mk.injEq] at h
                  obtain ⟨hA, hO, hL⟩ := h
                  subst hA
                  subst hO
                  subst hL
                  obtain ⟨ihO, ihm⟩ := ih rest1 hb (n + 1) A2 O2 L2 haux
                  constructor
                  · rw [orderUuids_append, ← ihO]
                    simp [orderUuids, List.filterMap_cons, hs]
                  · refine logCallsOk_append [a2] A2 [Call.getBalances, Call.sellLimit a2] L2
                      ?_ ihm
                    intro a3
                    constructor
                    · intro hmem
                      simp at hmem
                    · intro hmem
                      simp at hmem
                      subst hmem
                      exact ⟨by simp, hsell, hamt⟩
            · rw [if_neg hsell] at h
              simp only [List.nil_append] at h
              rw [lifeTradeAux_frame env rest1.length rest1 (le_refl _) [a2] (n + 1) []
                [Call.getBalances]] at h
              rcases haux : lifeTradeAux env [] rest1 (n + 1) [] [] with e | r
              · rw [haux] at h
                simp [Except.map] at h
              · rw [haux] at h
                obtain ⟨A2, O2, L2⟩ := r
                simp only [Except.map, Except.ok.injEq, Prod.mk.injEq] at h
                obtain ⟨hA, hO, hL⟩ := h
                subst hA
                subst hO
                subst hL
                obtain ⟨ihO, ihm⟩ := ih rest1 hb (n + 1) A2 O2 L2 haux
                constructor
                · rw [orderUuids_append, ← ihO]
                  simp [orderUuids]
                · refine logCallsOk_append [a2] A2 [Call.getBalances] L2 ?_ ihm
                  intro a3
                  constructor <;> intro hmem <;> simp at hmem

/-- **C8**.  When `life_trade` completes a batch, the open-orders registry
equals its initial contents plus exactly one identifier per placement call
whose exchange response has `success == true` (`orderUuids`), in call order —
an identifier is recorded iff the exchange confirmed success.  Moreover every
submitted action — also one whose response failed — remains in the returned
list, and the calls after a failed one are still in the log (processing
continued). -/
theorem life_trade_orders_iff_success
    (env : Env) (openOrders : List String) (actions A : List TAction)
    (O : List String) (L : List Call)
    (h : lifeTrade env openOrders actions = Except.ok (A, O, L)) :
    O = openOrders ++ orderUuids env L ∧
    ∀ a : TAction, (Call.buyLimit a ∈ L ∨ Call.sellLimit a ∈ L) → a ∈ A := by
  unfold lifeTrade at h
  rw [lifeTradeAux_frame env actions.length actions (le_refl _) [] 0 openOrders []] at h
  rcases haux : lifeTradeAux env [] actions 0 [] [] with e | r
  · rw [haux] at h
    simp [Except.map] at h
  · rw [haux] at h
    obtain ⟨A2, O2, L2⟩ := r
    simp only [Except.map, Except.ok.injEq, Prod.mk.injEq, List.nil_append] at h
    obtain ⟨hA, hO, hL⟩ := h
    subst hA
    subst hO
    subst hL
    obtain ⟨ihO, ihm⟩ :=
      lifeTradeAux_run_spec env actions.length actions (le_refl _) 0 A2 O2 L2 haux
    refine ⟨by rw [ihO], fun a ha => ?_⟩
    rcases ha with hb | hs
    · exact ((ihm a).1 hb).1
    · exact ((ihm a).2 hs).1

/-- Witness for C8: a failing buy followed by a succeeding sell, starting
from registry `["o0"]`: only the sell's uuid `"us"` is appended, and both
submitted actions survive in the returned list. -/
theorem life_trade_orders_iff_success_witness :
    (["o0", "us"] : List String) =
      ["o0"] ++ orderUuids
        ⟨0, fun _ => [], fun _ _ _ => ⟨false, "ub", "m"⟩, fun _ _ _ => ⟨true, "us", ""⟩⟩
        [Call.getBalances, Call.buyLimit ⟨"BTC_USDT".toList, TradeState.buy, 5, 1, false⟩,
          Call.getBalances, Call.sellLimit ⟨"ETH_USDT".toList, TradeState.sell, 7, 1, false⟩] ∧
    ∀ a : TAction,
      (Call.buyLimit a ∈
          [Call.getBalances, Call.buyLimit ⟨"BTC_USDT".toList, TradeState.buy, 5, 1, false⟩,
            Call.getBalances,
            Call.sellLimit ⟨"ETH_USDT".toList, TradeState.sell, 7, 1, false⟩] ∨
        Call.sellLimit a ∈
          [Call.getBalances, Call.buyLimit ⟨"BTC_USDT".toList, TradeState.buy, 5, 1, false⟩,
            Call.getBalances,
            Call.sellLimit ⟨"ETH_USDT".toList, TradeState.sell, 7, 1, false⟩]) →
      a ∈ [⟨"BTC_USDT".toList, TradeState.buy, 5, 1, false⟩,
        ⟨"ETH_USDT".toList, TradeState.sell, 7, 1, false⟩] :=
  life_trade_orders_iff_success
    ⟨0, fun _ => [], fun _ _ _ => ⟨false, "ub", "m"⟩, fun _ _ _ => ⟨true, "us", ""⟩⟩
    ["o0"]
    [⟨"BTC_USDT".toList, TradeState.buy, 5, 1, false⟩,
      ⟨"ETH_USDT".toList, TradeState.sell, 7, 1, false⟩]
    [⟨"BTC_USDT".toList, TradeState.buy, 5, 1, false⟩,
      ⟨"ETH_USDT".toList, TradeState.sell, 7, 1, false⟩]
    ["o0", "us"]
    [Call.getBalances, Call.buyLimit ⟨"BTC_USDT".toList, TradeState.buy, 5, 1, false⟩,
      Call.getBalances, Call.sellLimit ⟨"ETH_USDT".toList, TradeState.sell, 7, 1, false⟩]
    rfl

/-- **C7** (counterexample).  Two consecutive no-op actions (both
`action == none`): the first is removed while iterating, which slides the
second behind the iterator's cursor, so the loop ends — the second no-op
action is *still present in the returned list*, contradicting the claim that
every such action is absent from it (no exchange order call is made for
either, as the log shows). -/
theorem life_trade_skipped_noop_remains :
    lifeTrade ⟨0, fun _ => [], fun _ _ _ => ⟨false, "", ""⟩, fun _ _ _ => ⟨false, "", ""⟩⟩ []
        [⟨"BTC_USDT".toList, TradeState.none, 0, 1, false⟩,
          ⟨"ETH_USDT".toList, TradeState.none, 0, 1, false⟩] =
      Except.ok ([⟨"ETH_USDT".toList, TradeState.none, 0, 1, false⟩], [],
        [Call.getBalances]) ∧
    TAction.action ⟨"ETH_USDT".toList, TradeState.none, 0, 1, false⟩ = TradeState.none :=
  ⟨rfl, rfl⟩

/-- **C7** (amended).  No `buy_limit` or `sell_limit` call is ever issued for
a no-op action: every placement call in the log of a completed `life_trade`
run was submitted with the matching non-`none` action value and a nonzero
amount.  (A visited no-op action is removed from the list, but one skipped
because its predecessor was removed can remain — see the counterexample and
C10.) -/
theorem life_trade_no_call_for_noop
    (env : Env) (openOrders : List String) (actions A : List TAction)
    (O : List String) (L : List Call)
    (h : lifeTrade env openOrders actions = Except.ok (A, O, L)) :
    ∀ a : TAction,
      (Call.buyLimit a ∈ L → a.action = TradeState.buy ∧ a.amount ≠ 0) ∧
      (Call.sellLimit a ∈ L → a.action = TradeState.sell ∧ a.amount ≠ 0) := by
  unfold lifeTrade at h
  rw [lifeTradeAux_frame env actions.length actions (le_refl _) [] 0 openOrders []] at h
  rcases haux : lifeTradeAux env [] actions 0 [] [] with e | r
  · rw [haux] at h
    simp [Except.map] at h
  · rw [haux] at h
    obtain ⟨A2, O2, L2⟩ := r
    simp only [Except.map, Except.ok.injEq, Prod.mk.injEq, List.nil_append] at h
    obtain ⟨hA, hO, hL⟩ := h
    subst hA
    subst hO
    subst hL
    obtain ⟨ihO, ihm⟩ :=
      lifeTradeAux_run_spec env actions.length actions (le_refl _) 0 A2 O2 L2 haux
    intro a
    exact ⟨fun hb => ((ihm a).1 hb).2, fun hs => ((ihm a).2 hs).2⟩

/-- Witness for C7 (amended): in a run that logged a buy placement, the
submitted action's fields are `buy` and amount `5 ≠ 0`. -/
theorem life_trade_no_call_for_noop_witness :
    TAction.action ⟨"BTC_USDT".toList, TradeState.buy, 5, 1, false⟩ = TradeState.buy ∧
    TAction.amount ⟨"BTC_USDT".toList, TradeState.buy, 5, 1, false⟩ ≠ 0 :=
  (life_trade_no_call_for_noop
    ⟨0, fun _ => [], fun _ _ _ => ⟨true, "u", ""⟩, fun _ _ _ => ⟨false, "", ""⟩⟩ []
    [⟨"BTC_USDT".toList, TradeState.buy, 5, 1, false⟩]
    [⟨"BTC_USDT".toList, TradeState.buy, 5, 1, false⟩] ["u"]
    [Call.getBalances, Call.buyLimit ⟨"BTC_USDT".toList, TradeState.buy, 5, 1, false⟩]
    rfl ⟨"BTC_USDT".toList, TradeState.buy, 5, 1, false⟩).1 (by simp)

/-- **C10**.  When the visited head action `a` triggers removal (`action ==
none` or resolved amount 0), the whole run equals the run of the remaining
tail `rest` alone — started at balance-fetch index 1 — with the immediately
following action `b` merely prepended unvisited to the surviving list and
the single balance fetch for `a` prepended to the log: `b` gets no balance
fetch, no resolution and no placement call of its own (the continuation on
the right does not depend on `b`), yet it is present in the returned list. -/
theorem life_trade_removal_skips_next
    (env : Env) (openOrders : List String) (a b : TAction) (rest : List TAction)
    (h : removesAtVisit env 0 a) :
    lifeTrade env openOrders (a :: b :: rest) =
      (lifeTradeAux env [] rest 1 [] []).map
        (fun r => (b :: r.1, openOrders ++ r.2.1, Call.getBalances :: r.2.2)) := by
  obtain ⟨a2, hv, hrem⟩ := h
  unfold lifeTrade
  simp only [lifeTradeAux]
  rw [hv]
  dsimp only
  rw [if_pos hrem]
  simp only [List.nil_append, Nat.zero_add]
  rw [lifeTradeAux_frame env rest.length rest (le_refl _) [b] 1 openOrders
    [Call.getBalances]]
  rcases haux : lifeTradeAux env [] rest 1 [] [] with e | r
  · simp [Except.map]
  · simp [Except.map]

/-- Witness for C10: a `none` head action followed by a buy action and an
empty tail; the run reduces to the mapped empty continuation, leaving the
skipped buy action in the list untouched. -/
theorem life_trade_removal_skips_next_witness :
    lifeTrade ⟨0, fun _ => [], fun _ _ _ => ⟨false, "", ""⟩, fun _ _ _ => ⟨false, "", ""⟩⟩ []
        [⟨"BTC_USDT".toList, TradeState.none, 0, 1, false⟩,
          ⟨"ETH_USDT".toList, TradeState.buy, 5, 1, false⟩] =
      (lifeTradeAux
          ⟨0, fun _ => [], fun _ _ _ => ⟨false, "", ""⟩, fun _ _ _ => ⟨false, "", ""⟩⟩
          [] [] 1 [] []).map
        (fun r => (⟨"ETH_USDT".toList, TradeState.buy, 5, 1, false⟩ :: r.1, [] ++ r.2.1,
          Call.getBalances :: r.2.2)) :=
  life_trade_removal_skips_next _ []
    ⟨"BTC_USDT".toList, TradeState.none, 0, 1, false⟩
    ⟨"ETH_USDT".toList, TradeState.buy, 5, 1, false⟩ []
    ⟨⟨"BTC_USDT".toList, TradeState.none, 0, 1, false⟩, rfl, Or.inl rfl⟩
